import Mathlib

/-!
Verification of the gocask log-structured key-value store (src/gocask.go)
against its natural-language specification.

The on-disk byte level is modelled with `Fin 256` bytes.  Record and hint
codecs, the merge/compaction engine, startup recovery, and the public
operations are shallow embeddings of the corresponding Go functions; each
definition's doc comment names the Go function it embeds.
-/

namespace Gocask

/-- A byte, as written to a data file. -/
abbrev Byte := Fin 256

/-- Byte string of an ASCII Lean string literal (Go `[]byte(s)` for the
ASCII strings used below). -/
def bytesOf (s : String) : List Byte :=
  s.toList.map fun c => ⟨c.toNat % 256, Nat.mod_lt _ (by decide)⟩

/-- Go map assignment `m[k] = v` on an association-list view of a map:
replaces the binding if the key is present, otherwise appends it. -/
def upsert {α β : Type} [DecidableEq α] : List (α × β) → α → β → List (α × β)
  | [], k, v => [(k, v)]
  | (a, b) :: rest, k, v =>
      if a = k then (k, v) :: rest else (a, b) :: upsert rest k v

/-- Go map lookup `m[k]` on the association-list view. -/
def lookupA {α β : Type} [DecidableEq α] : List (α × β) → α → Option β
  | [], _ => none
  | (a, b) :: rest, k => if a = k then some b else lookupA rest k

/-- `binary.Write(w, binary.BigEndian, uint32(n))`: the 4 big-endian bytes
of `n` truncated to 32 bits (Go's `uint32(...)` conversion). -/
def writeBE4 (n : Nat) : List Byte :=
  let m := n % 4294967296
  [⟨m / 16777216 % 256, Nat.mod_lt _ (by decide)⟩,
   ⟨m / 65536 % 256, Nat.mod_lt _ (by decide)⟩,
   ⟨m / 256 % 256, Nat.mod_lt _ (by decide)⟩,
   ⟨m % 256, Nat.mod_lt _ (by decide)⟩]

/-- `binary.Read(r, binary.BigEndian, &x)` for a `uint32`: consumes 4 bytes
from the stream; fails (returns `none`, the read error) when fewer than 4
bytes remain. -/
def readBE4 : List Byte → Option (Nat × List Byte)
  | b0 :: b1 :: b2 :: b3 :: rest =>
      some (b0.val * 16777216 + b1.val * 65536 + b2.val * 256 + b3.val, rest)
  | _ => none

/-- Value of an exactly-4-byte big-endian buffer; `0` otherwise (the Go code
reads into a zero `uint32` and ignores the error on a short read). -/
def be4v : List Byte → Nat
  | [b0, b1, b2, b3] => b0.val * 16777216 + b1.val * 65536 + b2.val * 256 + b3.val
  | _ => 0

/-- `writeEntry` (gocask.go): the bytes appended for a normal record —
flag `0x00`, 4-byte big-endian key length, 4-byte big-endian value length,
key bytes, value bytes. -/
def encodeEntry (k v : List Byte) : List Byte :=
  0 :: (writeBE4 k.length ++ (writeBE4 v.length ++ (k ++ v)))

/-- `writeTombstone` (gocask.go): flag `0x01`, key length, value length `0`,
key bytes, no value. -/
def encodeTombstone (k : List Byte) : List Byte :=
  1 :: (writeBE4 k.length ++ (writeBE4 0 ++ k))

/-- Size in bytes by which `writeEntry` advances the file and the
`activeFileSize` counter: `1 + 8 + len(key) + len(value)`. -/
def writeEntrySize (k v : List Byte) : Nat :=
  1 + 8 + k.length + v.length

/-- `FileOffset` (gocask.go): a keydir entry — the file holding the record
and the byte offset of the record's flag byte. -/
structure FileOffset where
  FileID : String
  Offset : Nat
deriving DecidableEq, Repr

/-- Leading decimal digits of a character list, and the remainder
(the characters `fmt.Sscanf`'s `%d` verb consumes, and what follows). -/
def spanDigits : List Char → List Char × List Char
  | [] => ([], [])
  | c :: cs =>
      if c.isDigit then
        let p := spanDigits cs
        (c :: p.1, p.2)
      else ([], c :: cs)

/-- Numeric value of a list of decimal digits. -/
def digitsVal (ds : List Char) : Nat :=
  ds.foldl (fun a c => a * 10 + (c.toNat - 48)) 0

/-- `extractTimestamp` (gocask.go): `fmt.Sscanf(base, "data_%d.log", &ts)`
and `0` whenever the scan errors.  The literal `data_` must match, `%d`
consumes the maximal digit run, and the literal `.log` must match what
follows (`Sscanf` ignores any input after the format).  In particular a
`.hint` filename fails on the `.log` literal, so every hint file scans to
`0`.  `filepath.Base` is the identity on the directory-local names used
throughout. -/
def extractTimestamp (filePath : String) : Int :=
  let cs := filePath.toList
  if cs.take 5 = "data_".toList then
    let p := spanDigits (cs.drop 5)
    if p.1 ≠ [] ∧ p.2.take 4 = ".log".toList then (digitsVal p.1 : Int) else 0
  else 0

/-- Insert into a sorted list, keeping the new element after existing
elements it is not strictly less than. -/
def insertBy {α : Type} (less : α → α → Bool) (x : α) : List α → List α
  | [] => [x]
  | y :: ys => if less y x then y :: insertBy less x ys else x :: y :: ys

/-- `sort.Slice` (Go): modelled as a stable insertion sort.  For slices
below Go's size-12 threshold `sort.Slice` itself runs an insertion sort
that swaps only on a strictly-less comparison, so elements comparing equal
keep their input order, as they do here. -/
def sortSliceBy {α : Type} (less : α → α → Bool) : List α → List α
  | [] => []
  | x :: xs => insertBy less x (sortSliceBy less xs)

/-- ASCII whitespace, the bytes `unicode.IsSpace` accepts in ASCII text:
tab, newline, vertical tab, form feed, carriage return, space. -/
def isSpaceByte (b : Byte) : Bool :=
  match b.val with
  | 9 | 10 | 11 | 12 | 13 | 32 => true
  | _ => false

/-- `strings.TrimSpace` (Go) on an ASCII byte string: drops leading and
trailing whitespace bytes.  (Full Unicode trimming also strips multi-byte
whitespace runes; the keys exercised here are ASCII.) -/
def goTrimSpace (bs : List Byte) : List Byte :=
  ((bs.dropWhile isSpaceByte).reverse.dropWhile isSpaceByte).reverse

/-- `entry` (gocask.go, local to `mergeFiles`): the newest-wins table value
for one key — the value bytes and the tombstone mark. -/
structure MEntry where
  value : List Byte
  tombstone : Bool
deriving DecidableEq, Repr

/-- The per-file read loop of `mergeFiles` (gocask.go): reads records from
the byte stream of one input file, folding them into the `latest` table.
`fuel` only bounds the recursion; `mergeFile` supplies enough for any
stream.  A clean EOF on the flag read breaks the loop; a short read of the
lengths or of the key aborts with an error (`none`).  The key is passed
through `strings.TrimSpace`; a key already in `latest` is skipped, with
`reader.Discard` (error ignored) advancing past a normal record's value. -/
def mergeLoop : Nat → List Byte → List (List Byte × MEntry) →
    Option (List (List Byte × MEntry))
  | 0, _, _ => none
  | fuel + 1, bs, latest =>
      match bs with
      | [] => some latest
      | flag :: rest =>
          match readBE4 rest with
          | none => none
          | some (keyLen, rest1) =>
              match readBE4 rest1 with
              | none => none
              | some (valLen, rest2) =>
                  let keyBuf := rest2.take keyLen
                  if keyBuf.length = keyLen then
                    let rest3 := rest2.drop keyLen
                    let keyStr := goTrimSpace keyBuf
                    if (lookupA latest keyStr).isSome then
                      let rest4 :=
                        if flag = 0 ∧ 0 < valLen then rest3.drop valLen else rest3
                      mergeLoop fuel rest4 latest
                    else if flag = 1 then
                      mergeLoop fuel rest3 (upsert latest keyStr ⟨[], true⟩)
                    else
                      let valueBuf := rest3.take valLen
                      if valueBuf.length = valLen then
                        mergeLoop fuel (rest3.drop valLen)
                          (upsert latest keyStr ⟨valueBuf, false⟩)
                      else none
                  else none

/-- One input file of `mergeFiles`: its whole byte stream folded into the
`latest` table.  Every loop iteration consumes at least one byte, so
`length + 1` fuel always suffices. -/
def mergeFile (bs : List Byte) (latest : List (List Byte × MEntry)) :
    Option (List (List Byte × MEntry)) :=
  mergeLoop (bs.length + 1) bs latest

/-- `mergeFiles` (gocask.go): re-sorts the input files newest-first by
`extractTimestamp`, then reads each file in turn into the `latest` table.
Inputs are (filename, contents) pairs; the unused `keyDir` parameter of the
Go function is omitted. -/
def mergeFilesModel (files : List (String × List Byte)) :
    Option (List (List Byte × MEntry)) :=
  let sorted := sortSliceBy
    (fun a b => decide (extractTimestamp b.1 < extractTimestamp a.1)) files
  sorted.foldlM (fun latest f => mergeFile f.2 latest) []

/-- The records `mergeFiles` writes to `compacted_data.txt`: one normal
record per non-tombstone `latest` entry, in table order (the Go map's
iteration order is arbitrary; every property proved below is
order-insensitive). -/
def compactedRecords (latest : List (List Byte × MEntry)) :
    List (List Byte × List Byte) :=
  (latest.filter fun e => !e.2.tombstone).map fun e => (e.1, e.2.value)

/-- Concatenated `writeEntry` encodings of a record list — the byte
contents of the compacted output file. -/
def encRecords : List (List Byte × List Byte) → List Byte
  | [] => []
  | r :: rs => encodeEntry r.1 r.2 ++ encRecords rs

/-- Byte contents of `compacted_data.txt` after `mergeFiles` writes the
`latest` table. -/
def compactedBytes (latest : List (List Byte × MEntry)) : List Byte :=
  encRecords (compactedRecords latest)

/-- The `activeFileSize` counter when `rotateFile` returns: step 3 resets
it to `0`, after which the `writeEntry` calls inside `mergeFiles` add
`1 + 8 + len(key) + len(value)` for every record written to the compacted
output (gocask.go lines 149 and 343–348). -/
def rotateActiveSizeAfter (files : List (String × List Byte)) : Option Nat :=
  (mergeFilesModel files).map fun latest =>
    0 + ((compactedRecords latest).map fun r => writeEntrySize r.1 r.2).sum

/-- `strings.TrimSuffix(h, ".hint") + ".log"` (gocask.go, `RebuildKeyDir`):
the companion data-file name computed for a hint file. -/
def companionLogName (h : String) : String :=
  let cs := h.toList
  let stem :=
    if 5 ≤ cs.length ∧ cs.drop (cs.length - 5) = ".hint".toList then
      cs.take (cs.length - 5)
    else cs
  String.mk (stem ++ ".log".toList)

/-- `RebuildKeyDir` (gocask.go): takes the `data_*.hint` glob results — in
`filepath.Glob`'s lexical order — with each hint file's decoded
`(key, offset)` entries, sorts them ascending by `extractTimestamp` of the
hint filename, and folds every entry into a fresh keydir bound to the
companion `.log` name.  No check that the companion data file exists is
performed anywhere in the function. -/
def RebuildKeyDirModel (hints : List (String × List (List Byte × Nat))) :
    List (List Byte × FileOffset) :=
  let sorted := sortSliceBy
    (fun a b => decide (extractTimestamp a.1 < extractTimestamp b.1)) hints
  sorted.foldl
    (fun kd h =>
      h.2.foldl (fun kd e => upsert kd e.1 ⟨companionLogName h.1, e.2⟩) kd)
    []

/-- In-memory image of a running store: the contents of `data.txt`, the
file descriptor's seek position, and the keydir.  The file is opened with
`O_APPEND`, so a flushed write lands at end-of-file and moves the position
to the new end, while `os.OpenFile` itself leaves the position at `0`. -/
structure Store where
  file : List Byte
  fdPos : Nat
  keyDir : List (List Byte × FileOffset)
deriving DecidableEq, Repr

/-- `os.OpenFile("data.txt", os.O_RDWR|os.O_CREATE|os.O_APPEND, 0644)` over
a possibly pre-existing file, with the keydir produced by recovery: the
seek position starts at `0`. -/
def openStore (existing : List Byte) (kd : List (List Byte × FileOffset)) :
    Store :=
  ⟨existing, 0, kd⟩

/-- A flushed buffered write on the `O_APPEND` descriptor: the bytes are
appended at end-of-file and the descriptor position moves to the new end. -/
def flushAppend (st : Store) (bs : List Byte) : Store :=
  { st with file := st.file ++ bs, fdPos := st.file.length + bs.length }

/-- The `PUT` branch of `main` (gocask.go): captures
`f.Seek(0, io.SeekCurrent)`, appends a `writeEntry` record through the
buffered writer, flushes, and sets `keyDir[key] = ("data.txt", offset)`. -/
def PutOp (st : Store) (k v : List Byte) : Store :=
  let offset := st.fdPos
  let st1 := flushAppend st (encodeEntry k v)
  { st1 with keyDir := upsert st1.keyDir k ⟨"data.txt", offset⟩ }

/-- `Delete` (gocask.go): captures `f.Seek(0, io.SeekCurrent)`, writes a
tombstone, calls `w.Flush()` *without checking its error*, and sets
`keyDir[key] = ("data.txt", offset)` unconditionally, returning `nil`.
`writeFails` injects a kernel-write failure into the flush: the bytes never
reach the file, and the ignored error changes nothing else.  (The only
error path of the Go function is the in-memory `Seek`, which cannot
fail here.) -/
def DeleteOp (writeFails : Bool) (st : Store) (k : List Byte) :
    Except String Store :=
  let offset := st.fdPos
  let st1 := if writeFails then st else flushAppend st (encodeTombstone k)
  .ok { st1 with keyDir := upsert st1.keyDir k ⟨"data.txt", offset⟩ }

/-- Outcome of `Get` (gocask.go): the "key not found" error, the
"was deleted" error, an `os.Open` failure, or a value. -/
inductive GetResult where
  | notFound
  | deleted
  | ioError
  | value (v : List Byte)
deriving DecidableEq, Repr

/-- `Get` (gocask.go): keydir lookup, `os.Open` of the stored file, seek to
the stored offset, then a sequence of reads whose errors the code ignores:
the 1-byte flag read leaves the zeroed buffer untouched at EOF; the
`binary.Read`s of the lengths leave the `uint32`s at `0` on a short read
while consuming whatever bytes were available; the final `io.ReadFull`
into the zeroed `make([]byte, vLen)` buffer leaves unread bytes zero.
`resolve` maps a file name to its contents (`none` when `os.Open` fails). -/
def GetModel (resolve : String → Option (List Byte))
    (keyDir : List (List Byte × FileOffset)) (key : List Byte) : GetResult :=
  match lookupA keyDir key with
  | none => .notFound
  | some fo =>
      match resolve fo.FileID with
      | none => .ioError
      | some file =>
          let p0 := fo.Offset
          let b1 := (file.drop p0).take 1
          let p1 := p0 + b1.length
          let flag : Byte := b1.headD 0
          if flag = 1 then .deleted
          else
            let b2 := (file.drop p1).take 4
            let p2 := p1 + b2.length
            let kLen := if b2.length = 4 then be4v b2 else 0
            let b3 := (file.drop p2).take 4
            let p3 := p2 + b3.length
            let vLen := if b3.length = 4 then be4v b3 else 0
            let p4 := p3 + kLen
            let vb := (file.drop p4).take vLen
            .value (vb ++ List.replicate (vLen - vb.length) 0)

/-- `Get` against a single-active-file run: the keydir points into
`data.txt`, whose contents are the store's file. -/
def GetOp (st : Store) (k : List Byte) : GetResult :=
  GetModel (fun fid => if fid = "data.txt" then some st.file else none)
    st.keyDir k

/-- The post-install scan of `rotateFile` (gocask.go, step 7): walks the
compacted log sequentially, recording `realOffsets[string(key)] = off` for
every record whose flag is `flagNormal`, where `off` is the seek position
at the start of the record.  The value bytes are skipped with a relative
seek.  EOF on the flag read ends the scan; a short read of the lengths or
the key aborts with an error.  The stream argument is the file suffix at
position `pos`; `fuel` only bounds the recursion. -/
def scanLoop : Nat → List Byte → Nat → List (List Byte × Nat) →
    Option (List (List Byte × Nat))
  | 0, _, _, _ => none
  | fuel + 1, bs, pos, acc =>
      match bs with
      | [] => some acc
      | flag :: rest =>
          match readBE4 rest with
          | none => none
          | some (keyLen, rest1) =>
              match readBE4 rest1 with
              | none => none
              | some (valLen, rest2) =>
                  let keyBuf := rest2.take keyLen
                  if keyBuf.length = keyLen then
                    let acc1 := if flag = 0 then upsert acc keyBuf pos else acc
                    scanLoop fuel (rest2.drop (keyLen + valLen))
                      (pos + 9 + keyLen + valLen) acc1
                  else none

/-- The `realOffsets` table the rotation scan produces for a whole file —
exactly the `(key, offset)` entries `rotateFile` then writes into the
generation's hint file (step 8; the hint write emits each table entry
once, in the Go map's arbitrary order). -/
def scanRecords (file : List Byte) : Option (List (List Byte × Nat)) :=
  scanLoop (file.length + 1) file 0 []

/-- Reading one complete record of a data file at a byte offset: the flag,
the key and the value, available only when every field is fully present.
This is the observation the hint/data-agreement invariant speaks about. -/
def readRecordAt (file : List Byte) (off : Nat) :
    Option (Byte × List Byte × List Byte) :=
  match file.drop off with
  | [] => none
  | flag :: rest =>
      match readBE4 rest with
      | none => none
      | some (keyLen, rest1) =>
          match readBE4 rest1 with
          | none => none
          | some (valLen, rest2) =>
              let k := rest2.take keyLen
              let v := (rest2.drop keyLen).take valLen
              if k.length = keyLen ∧ v.length = valLen then
                some (flag, k, v)
              else none

/-! ### Library lemmas about the embedded operations -/

/-- Looking a key up right after `upsert` yields the new binding. -/
theorem lookupA_upsert_self {α β : Type} [DecidableEq α]
    (m : List (α × β)) (k : α) (v : β) :
    lookupA (upsert m k v) k = some v := by
  induction m with
  | nil => simp [upsert, lookupA]
  | cons a rest ih =>
      obtain ⟨a1, a2⟩ := a
      by_cases hk : a1 = k
      · simp [upsert, hk, lookupA]
      · simp [upsert, hk, lookupA, ih]

/-- Every binding found by `lookupA` is a member of the association list. -/
theorem lookupA_mem {α β : Type} [DecidableEq α]
    (m : List (α × β)) (k : α) (v : β)
    (h : lookupA m k = some v) : (k, v) ∈ m := by
  induction m with
  | nil => simp [lookupA] at h
  | cons a rest ih =>
      obtain ⟨a1, a2⟩ := a
      by_cases hk : a1 = k
      · subst hk
        simp [lookupA] at h
        simp [h]
      · simp [lookupA, hk] at h
        exact List.mem_cons_of_mem _ (ih h)

/-- `upsert` adds no binding beyond the new one and the old ones. -/
theorem mem_upsert {α β : Type} [DecidableEq α]
    (m : List (α × β)) (k : α) (v : β) (x : α × β)
    (h : x ∈ upsert m k v) : x = (k, v) ∨ x ∈ m := by
  induction m with
  | nil => simpa [upsert] using h
  | cons a rest ih =>
      obtain ⟨a1, a2⟩ := a
      by_cases hk : a1 = k
      · simp [upsert, hk] at h
        rcases h with h | h
        · exact Or.inl h
        · exact Or.inr (List.mem_cons_of_mem _ h)
      · simp [upsert, hk] at h
        rcases h with h | h
        · exact Or.inr (by simp [h])
        · rcases ih h with h1 | h1
          · exact Or.inl h1
          · exact Or.inr (List.mem_cons_of_mem _ h1)

/-- `insertBy` is a permutation-preserving insertion: same members. -/
theorem mem_insertBy {α : Type} (less : α → α → Bool) (x y : α)
    (l : List α) (h : x ∈ insertBy less y l) : x = y ∨ x ∈ l := by
  induction l with
  | nil => simpa [insertBy] using h
  | cons a rest ih =>
      by_cases hl : less a y = true
      · simp [insertBy, hl] at h
        rcases h with h | h
        · exact Or.inr (by simp [h])
        · rcases ih h with h1 | h1
          · exact Or.inl h1
          · exact Or.inr (List.mem_cons_of_mem _ h1)
      · simp [insertBy, hl] at h
        rcases h with h | h | h
        · exact Or.inl h
        · exact Or.inr (by simp [h])
        · exact Or.inr (List.mem_cons_of_mem _ h)

/-- The sort model neither invents nor loses elements. -/
theorem mem_sortSliceBy {α : Type} (less : α → α → Bool) (x : α)
    (l : List α) (h : x ∈ sortSliceBy less l) : x ∈ l := by
  induction l with
  | nil => simp [sortSliceBy] at h
  | cons a rest ih =>
      rcases mem_insertBy less x a _ h with h1 | h1
      · simp [h1]
      · exact List.mem_cons_of_mem _ (ih h1)

/-- Round trip of the 4-byte big-endian codec: reading back the bytes of
`uint32(n)` yields `n mod 2³²` and leaves the rest of the stream. -/
theorem readBE4_writeBE4 (n : Nat) (rest : List Byte) :
    readBE4 (writeBE4 n ++ rest) = some (n % 4294967296, rest) := by
  simp only [writeBE4, readBE4, List.cons_append, List.nil_append,
    Option.some.injEq, Prod.mk.injEq, and_true]
  omega

/-- A `writeEntry` record occupies `9 + len(key) + len(value)` bytes. -/
theorem encodeEntry_length (k v : List Byte) :
    (encodeEntry k v).length = 9 + k.length + v.length := by
  simp [encodeEntry, writeBE4]
  omega

/-- A record list never outnumbers its encoded bytes. -/
theorem length_le_encRecords (rs : List (List Byte × List Byte)) :
    rs.length ≤ (encRecords rs).length := by
  induction rs with
  | nil => simp [encRecords]
  | cons r rest ih =>
      simp only [encRecords, List.length_append, List.length_cons,
        encodeEntry_length]
      omega

/-- One iteration of the rotation scan over a well-formed record: it
records the record's start offset for its key and moves past the record. -/
theorem scanLoop_step (fuel : Nat) (k v tail : List Byte) (pos : Nat)
    (acc : List (List Byte × Nat))
    (hk : k.length < 4294967296) (hv : v.length < 4294967296) :
    scanLoop (fuel + 1) (encodeEntry k v ++ tail) pos acc
      = scanLoop fuel tail (pos + 9 + k.length + v.length)
          (upsert acc k pos) := by
  have h1 : encodeEntry k v ++ tail
      = (0 : Byte) ::
          (writeBE4 k.length ++ (writeBE4 v.length ++ (k ++ (v ++ tail)))) := by
    simp [encodeEntry, List.append_assoc]
  have htake : (k ++ (v ++ tail)).take k.length = k := List.take_left _ _
  have hdrop : (k ++ (v ++ tail)).drop (k.length + v.length) = tail := by
    rw [← List.append_assoc, ← List.length_append]
    exact List.drop_left _ _
  rw [h1]
  simp only [scanLoop, readBE4_writeBE4, Nat.mod_eq_of_lt hk,
    Nat.mod_eq_of_lt hv, htake, hdrop]
  simp

/-- Reading a data file at the start offset of a well-formed record yields
exactly that record: flag normal, the record's key, the record's value. -/
theorem readRecordAt_encode (file k v tail : List Byte) (pos : Nat)
    (hk : k.length < 4294967296) (hv : v.length < 4294967296)
    (hd : file.drop pos = encodeEntry k v ++ tail) :
    readRecordAt file pos = some (0, k, v) := by
  have h1 : file.drop pos
      = (0 : Byte) ::
          (writeBE4 k.length ++ (writeBE4 v.length ++ (k ++ (v ++ tail)))) := by
    rw [hd]
    simp [encodeEntry, List.append_assoc]
  have htake : (k ++ (v ++ tail)).take k.length = k := List.take_left _ _
  have hdropk : (k ++ (v ++ tail)).drop k.length = v ++ tail :=
    List.drop_left _ _
  have htakev : (v ++ tail).take v.length = v := List.take_left _ _
  simp only [readRecordAt, h1, readBE4_writeBE4, Nat.mod_eq_of_lt hk,
    Nat.mod_eq_of_lt hv, htake, hdropk, htakev]
  simp

/-- Soundness of the rotation scan over a stream of well-formed normal
records: starting at any position whose file suffix encodes the remaining
records, with an accumulator whose entries already agree with the file,
the scan succeeds and every table entry `(key, off)` it returns reads back
from the file at `off` as a normal record with that exact key. -/
theorem scanLoop_sound (recs : List (List Byte × List Byte)) :
    ∀ (fuel pos : Nat) (file : List Byte) (acc : List (List Byte × Nat)),
      recs.length < fuel →
      file.drop pos = encRecords recs →
      (∀ r ∈ recs, r.1.length < 4294967296 ∧ r.2.length < 4294967296) →
      (∀ e ∈ acc, ∃ w, readRecordAt file e.2 = some (0, e.1, w)) →
      ∃ res, scanLoop fuel (file.drop pos) pos acc = some res ∧
        ∀ e ∈ res, ∃ w, readRecordAt file e.2 = some (0, e.1, w) := by
  induction recs with
  | nil =>
      intro fuel pos file acc hf hd _ hacc
      obtain ⟨f1, rfl⟩ : ∃ m, fuel = m + 1 := ⟨fuel - 1, by omega⟩
      rw [hd]
      exact ⟨acc, rfl, hacc⟩
  | cons r rs ih =>
      intro fuel pos file acc hf hd hb hacc
      obtain ⟨k, v⟩ := r
      obtain ⟨f1, rfl⟩ : ∃ m, fuel = m + 1 := ⟨fuel - 1, by omega⟩
      have hkb := (hb (k, v) (List.mem_cons_self _ _)).1
      have hvb := (hb (k, v) (List.mem_cons_self _ _)).2
      have hd1 : file.drop pos = encodeEntry k v ++ encRecords rs := hd
      rw [hd1, scanLoop_step f1 k v _ pos acc hkb hvb]
      have hd2 : file.drop (pos + 9 + k.length + v.length) = encRecords rs := by
        have hdd := List.drop_drop (9 + k.length + v.length) pos file
        rw [hd1] at hdd
        have hlen : 9 + k.length + v.length = (encodeEntry k v).length := by
          rw [encodeEntry_length]
        rw [hlen, List.drop_left] at hdd
        have harith : pos + 9 + k.length + v.length
            = pos + (9 + k.length + v.length) := by omega
        rw [harith, hlen]
        exact hdd.symm
      have hacc1 : ∀ e ∈ upsert acc k pos,
          ∃ w, readRecordAt file e.2 = some (0, e.1, w) := by
        intro e he
        rcases mem_upsert _ _ _ _ he with h1 | h1
        · rw [h1]
          exact ⟨v, readRecordAt_encode file k v _ pos hkb hvb hd1⟩
        · exact hacc e h1
      have hb' : ∀ r ∈ rs, r.1.length < 4294967296 ∧ r.2.length < 4294967296 :=
        fun r hr => hb r (List.mem_cons_of_mem _ hr)
      have hf' : rs.length < f1 := by
        simp only [List.length_cons] at hf
        omega
      have hrec := ih f1 (pos + 9 + k.length + v.length) file
        (upsert acc k pos) hf' hd2 hb' hacc1
      rw [hd2] at hrec
      exact hrec

/-- The rotation scan of a whole well-formed file of normal records
succeeds, and its `realOffsets` table agrees with the file. -/
theorem scanRecords_sound (recs : List (List Byte × List Byte))
    (hb : ∀ r ∈ recs, r.1.length < 4294967296 ∧ r.2.length < 4294967296) :
    ∃ res, scanRecords (encRecords recs) = some res ∧
      ∀ e ∈ res, ∃ w, readRecordAt (encRecords recs) e.2
        = some (0, e.1, w) := by
  have h := scanLoop_sound recs ((encRecords recs).length + 1) 0
    (encRecords recs) []
    (by have := length_le_encRecords recs; omega)
    (by simp) hb (by simp)
  simpa [scanRecords] using h

/-! ### Claim theorems -/

/-- C1.  Merge keeps the *first* record read per key, and within one input
file records are read oldest-first, so the oldest record of a key inside a
file wins.  On a single input log holding `put a 1` then `put a 2` the
merge output maps `a` to `"1"`, while the newest record for `a` carries
`"2"` — the claimed newest-wins guarantee fails. -/
theorem mergeFiles_keeps_oldest_record_within_file :
    mergeFilesModel [("data_1.log",
        encodeEntry (bytesOf "a") (bytesOf "1") ++
          encodeEntry (bytesOf "a") (bytesOf "2"))]
      = some [(bytesOf "a", ⟨bytesOf "1", false⟩)] ∧
    bytesOf "1" ≠ bytesOf "2" := by
  constructor
  · rfl
  · decide

/-- C2.  `extractTimestamp` scans with the format `data_%d.log`, which
never matches a `.hint` filename, so every hint file sorts with key `0`
and the order that survives is `filepath.Glob`'s lexical order.  With
hints `data_10.hint` and `data_9.hint` (lexically in that order) holding
the same key, recovery keeps the entry of `data_9.hint` — not that of the
hint with the greatest embedded identifier, `10`. -/
theorem rebuildKeyDir_order_ignores_embedded_ids :
    extractTimestamp "data_10.hint" = 0 ∧
    extractTimestamp "data_9.hint" = 0 ∧
    lookupA (RebuildKeyDirModel
        [("data_10.hint", [(bytesOf "k", 5)]),
         ("data_9.hint", [(bytesOf "k", 7)])]) (bytesOf "k")
      = some ⟨"data_9.log", 7⟩ := by
  refine ⟨rfl, rfl, ?_⟩
  rfl

/-- C3 counterexample.  A directory holding only `data_5.hint` (no
`data_5.log`, no data file at all): recovery still enters the orphan
hint's binding into the keydir, pointing at the non-existent companion —
the claim says such a hint is skipped. -/
theorem rebuildKeyDir_keeps_orphan_hint_entry :
    lookupA (RebuildKeyDirModel [("data_5.hint", [(bytesOf "k", 3)])])
        (bytesOf "k")
      = some ⟨"data_5.log", 3⟩ ∧
    "data_5.log" ∉ ([] : List String) := by
  exact ⟨rfl, by simp⟩

/-- C3 amended.  `RebuildKeyDir` performs no existence check at all: every
binding it produces simply comes from some hint file's entry, bound to the
companion `.log` name, whether or not that data file exists; recovery
never opens or modifies a data file. -/
theorem rebuildKeyDir_binds_entries_unconditionally
    (hints : List (String × List (List Byte × Nat)))
    (k : List Byte) (fo : FileOffset)
    (h : lookupA (RebuildKeyDirModel hints) k = some fo) :
    ∃ hf ∈ hints, fo.FileID = companionLogName hf.1 ∧
      (k, fo.Offset) ∈ hf.2 := by
  have hmem := lookupA_mem _ _ _ h
  rw [RebuildKeyDirModel] at hmem
  have main : ∀ (hs : List (String × List (List Byte × Nat)))
      (kd : List (List Byte × FileOffset)),
      (k, fo) ∈ hs.foldl
        (fun kd h =>
          h.2.foldl (fun kd e => upsert kd e.1 ⟨companionLogName h.1, e.2⟩) kd)
        kd →
      (k, fo) ∈ kd ∨
        ∃ hf ∈ hs, fo.FileID = companionLogName hf.1 ∧ (k, fo.Offset) ∈ hf.2 := by
    intro hs
    induction hs with
    | nil => intro kd hin; exact Or.inl hin
    | cons hf rest ih =>
        intro kd hin
        have inner : ∀ (es : List (List Byte × Nat))
            (kd0 : List (List Byte × FileOffset)),
            (k, fo) ∈ es.foldl
              (fun kd e => upsert kd e.1 ⟨companionLogName hf.1, e.2⟩) kd0 →
            (k, fo) ∈ kd0 ∨
              (fo.FileID = companionLogName hf.1 ∧ (k, fo.Offset) ∈ es) := by
          intro es
          induction es with
          | nil => intro kd0 hin0; exact Or.inl hin0
          | cons e rest0 ih0 =>
              intro kd0 hin0
              rcases ih0 _ hin0 with h1 | h1
              · rcases mem_upsert _ _ _ _ h1 with h2 | h2
                · have he1 : k = e.1 := congrArg Prod.fst h2
                  have he2 : fo = ⟨companionLogName hf.1, e.2⟩ :=
                    congrArg Prod.snd h2
                  refine Or.inr ⟨by rw [he2], ?_⟩
                  rw [he1, he2]
                  exact List.mem_cons_self _ _
                · exact Or.inl h2
              · exact Or.inr ⟨h1.1, List.mem_cons_of_mem _ h1.2⟩
        rw [List.foldl_cons] at hin
        rcases ih _ hin with h1 | h1
        · rcases inner _ _ h1 with h2 | h2
          · exact Or.inl h2
          · exact Or.inr ⟨hf, List.mem_cons_self _ _, h2⟩
        · obtain ⟨hf1, hm, hp⟩ := h1
          exact Or.inr ⟨hf1, List.mem_cons_of_mem _ hm, hp⟩
  rcases main _ _ hmem with h1 | h1
  · simp at h1
  · obtain ⟨hf, hm, hp⟩ := h1
    exact ⟨hf, mem_sortSliceBy _ _ _ hm, hp⟩

/-- C3 amended, witness: applied to a directory holding one orphan hint. -/
theorem rebuildKeyDir_binds_entries_unconditionally_witness :
    lookupA (RebuildKeyDirModel [("data_5.hint", [(bytesOf "ok", 3)])])
        (bytesOf "ok") = some ⟨"data_5.log", 3⟩ ∧
    (∃ hf ∈ [("data_5.hint", [(bytesOf "ok", 3)])],
      ("data_5.log" : String) = companionLogName hf.1 ∧
        ((bytesOf "ok", 3) : List Byte × Nat) ∈ hf.2) :=
  ⟨rfl, rebuildKeyDir_binds_entries_unconditionally _ _ ⟨"data_5.log", 3⟩ rfl⟩

/-- C4.  `os.OpenFile(..., O_APPEND, ...)` leaves the descriptor position
at `0`; it only jumps to end-of-file on a write.  So the first `PUT` after
opening a store over a pre-existing 13-byte active file captures offset
`0` from `f.Seek(0, io.SeekCurrent)` and stores it in the keydir, while
the record is appended at offset `13` — the claimed equality with the
record-start offset fails. -/
theorem put_captures_fd_position_not_eof :
    lookupA (PutOp (openStore (encodeEntry (bytesOf "x") (bytesOf "old")) [])
        (bytesOf "k") (bytesOf "v")).keyDir (bytesOf "k")
      = some ⟨"data.txt", 0⟩ ∧
    (openStore (encodeEntry (bytesOf "x") (bytesOf "old")) []).file.length
      = 13 := by
  exact ⟨rfl, rfl⟩

/-- C5.  `rotateFile` resets `activeFileSize` to `0` *before* running
`mergeFiles`, and `mergeFiles` writes the compacted output through
`writeEntry`, which increments the same counter.  After a rotation whose
merge output is the single record `(a, 1)` the counter reads `11`, not
`0`. -/
theorem rotate_counter_counts_compacted_bytes :
    rotateActiveSizeAfter
        [("data_1.log", encodeEntry (bytesOf "a") (bytesOf "1"))]
      = some 11 ∧ (11 : Nat) ≠ 0 := by
  exact ⟨rfl, by decide⟩

/-- C6.  `mergeFiles` passes every key it reads through
`strings.TrimSpace`: merging a single record whose key is `"a "` (trailing
space) produces a compacted record whose key is `"a"` — the key bytes are
not preserved. -/
theorem merge_trims_whitespace_from_keys :
    (mergeFilesModel
        [("data_1.log", encodeEntry (bytesOf "a ") (bytesOf "v"))]).map
        compactedRecords
      = some [(bytesOf "a", bytesOf "v")] ∧
    bytesOf "a" ≠ bytesOf "a " := by
  constructor
  · rfl
  · decide

/-- C7.  In a run opened over a pre-existing non-empty active file (one
13-byte record `x ↦ old`), `delete(k)` stores the stale captured offset
`0` in the keydir; the subsequent `get(k)` therefore reads the *normal*
record at offset `0` and returns the value `"old"` — neither *Deleted* nor
*NotFound*. -/
theorem get_after_delete_returns_other_value :
    (DeleteOp false (openStore (encodeEntry (bytesOf "x") (bytesOf "old")) [])
        (bytesOf "k")).map (fun st => GetOp st (bytesOf "k"))
      = Except.ok (GetResult.value (bytesOf "old")) := by
  rfl

/-- C8.  `Delete` never checks the result of `w.Flush()`: when the kernel
write fails, the function still returns `nil` and still overwrites the
keydir entry for the key with the captured offset, and the file is left
without the tombstone. -/
theorem delete_ignores_flush_failure (st : Store) (k : List Byte) :
    ∃ st1, DeleteOp true st k = Except.ok st1 ∧
      lookupA st1.keyDir k = some ⟨"data.txt", st.fdPos⟩ ∧
      st1.file = st.file :=
  ⟨_, rfl, lookupA_upsert_self _ _ _, rfl⟩

/-- C10.  When the keydir entry's offset lies at or beyond the end of the
stored file, every read in `Get` fails and every failure is ignored: the
zeroed flag buffer is treated as a normal record, both lengths read as
`0`, and `Get` returns the empty string with no error. -/
theorem get_stale_offset_returns_empty_string
    (resolve : String → Option (List Byte))
    (keyDir : List (List Byte × FileOffset)) (key : List Byte)
    (fo : FileOffset) (file : List Byte)
    (h1 : lookupA keyDir key = some fo)
    (h2 : resolve fo.FileID = some file)
    (h3 : file.length ≤ fo.Offset) :
    GetModel resolve keyDir key = GetResult.value [] := by
  have hd : file.drop fo.Offset = [] := List.drop_eq_nil_of_le h3
  simp [GetModel, h1, h2, hd]

/-- C10 witness: a keydir entry pointing 50 bytes into an 11-byte file. -/
theorem get_stale_offset_returns_empty_string_witness :
    lookupA [(bytesOf "k", (⟨"data_1.log", 50⟩ : FileOffset))] (bytesOf "k")
        = some ⟨"data_1.log", 50⟩ ∧
    (fun fid => if fid = "data_1.log"
        then some (encodeEntry (bytesOf "a") (bytesOf "v")) else none)
      (FileOffset.mk "data_1.log" 50).FileID
        = some (encodeEntry (bytesOf "a") (bytesOf "v")) ∧
    (encodeEntry (bytesOf "a") (bytesOf "v")).length ≤ 50 ∧
    GetModel
      (fun fid => if fid = "data_1.log"
        then some (encodeEntry (bytesOf "a") (bytesOf "v")) else none)
      [(bytesOf "k", ⟨"data_1.log", 50⟩)] (bytesOf "k")
        = GetResult.value [] :=
  ⟨rfl, rfl, by decide,
    get_stale_offset_returns_empty_string _ _ _ _ _ rfl rfl (by decide)⟩

/-- C9.  The hint file of a rotation generation is written from the
`realOffsets` table of the post-install scan, and that scan records the
true start offset of every normal record while reading the installed
compacted file itself — so every hint entry `(key, off)` reads back from
the compacted data file at `off` as a record with flag normal (`0x00`) and
exactly that key.  The compacted file consists of one `writeEntry` record
per surviving `latest` entry; key and value lengths fit `uint32`. -/
theorem rotation_hint_data_agreement (latest : List (List Byte × MEntry))
    (hb : ∀ e ∈ latest,
      e.1.length < 4294967296 ∧ e.2.value.length < 4294967296) :
    ∃ hs, scanRecords (compactedBytes latest) = some hs ∧
      ∀ e ∈ hs, ∃ w, readRecordAt (compactedBytes latest) e.2
        = some (0, e.1, w) := by
  have hb' : ∀ r ∈ compactedRecords latest,
      r.1.length < 4294967296 ∧ r.2.length < 4294967296 := by
    intro r hr
    simp only [compactedRecords, List.mem_map, List.mem_filter] at hr
    obtain ⟨e, ⟨he, _⟩, rfl⟩ := hr
    exact ⟨(hb e he).1, (hb e he).2⟩
  exact scanRecords_sound _ hb'

/-- C9 witness: a merge result with the single surviving record
`(a, v)`. -/
theorem rotation_hint_data_agreement_witness :
    (∀ e ∈ [((bytesOf "a" : List Byte), (⟨bytesOf "v", false⟩ : MEntry))],
      e.1.length < 4294967296 ∧ e.2.value.length < 4294967296) ∧
    (∃ hs, scanRecords (compactedBytes [(bytesOf "a", ⟨bytesOf "v", false⟩)])
        = some hs ∧
      ∀ e ∈ hs, ∃ w,
        readRecordAt (compactedBytes [(bytesOf "a", ⟨bytesOf "v", false⟩)]) e.2
          = some (0, e.1, w)) :=
  ⟨by decide, rotation_hint_data_agreement _ (by decide)⟩

end Gocask
